import Mathlib

/-!
Verification of the crawler-and-auditor core of `scripts/audit/shopify_sf_like_audit.py`.

The Python source is shallowly embedded below.  URLs are modelled as `List Char`
at the parsing level (with `String` wrappers matching the Python function
signatures).  The source delegates URL parsing to CPython's `urllib.parse`
(`urlparse`, `urljoin`, `urlunparse`); those library functions are embedded
here as well, following the CPython 3.10-3.12 implementation.  Two
validation scopes of `urlsplit`: CPython's NFKC validation of non-ASCII
authorities (`_checknetloc`) is modelled conservatively — the model rejects
every non-ASCII authority, exactly matching CPython on ASCII input (see
`checknetloc`); the bracketed-host IPv6 validation added in Python 3.11
(`_check_bracketed_host`, which fires only on authorities containing square
brackets) is not modelled, so theorems about inputs with balanced square
brackets in the authority would be outside the model's exact scope — no
theorem below concerns such inputs.  Python exceptions are modelled with
`Except String`.

Stateful code (`Auditor.crawl`) is embedded as explicit state passing with a
fuel-indexed loop: `crawlLoop fuel s` is the state after at most `fuel`
iterations of the `while` loop, so properties proved for every `fuel` hold at
every point during and after the crawl.
-/

set_option maxRecDepth 100000

namespace SeoAudit

/-- Equality on the `Except` monad (used to evaluate modelled Python calls,
including raised exceptions, inside `decide`). -/
instance {ε α : Type} [DecidableEq ε] [DecidableEq α] : DecidableEq (Except ε α)
  | .error a, .error b =>
    if h : a = b then isTrue (by rw [h]) else isFalse (fun he => h (Except.error.inj he))
  | .error _, .ok _ => isFalse (fun he => Except.noConfusion he)
  | .ok _, .error _ => isFalse (fun he => Except.noConfusion he)
  | .ok a, .ok b =>
    if h : a = b then isTrue (by rw [h]) else isFalse (fun he => h (Except.ok.inj he))

/-! ## Generic character-list helpers (Python `str` operations) -/

/-- Python `str.split(sep, 1)` on a single character, assuming the separator
occurs: returns the part before the first occurrence and the part after it. -/
def splitOnFirst (sep : Char) : List Char → List Char × List Char
  | [] => ([], [])
  | c :: rest =>
    if c = sep then ([], rest)
    else
      let r := splitOnFirst sep rest
      (c :: r.1, r.2)

/-- Python `str.split(sep)` on a single character (`"".split(c) = [""]`). -/
def splitAll (sep : Char) : List Char → List (List Char)
  | [] => [[]]
  | c :: rest =>
    let r := splitAll sep rest
    if c = sep then [] :: r
    else
      match r with
      | [] => [[c]]
      | h :: t => (c :: h) :: t

/-- Python `sep.join(parts)` on a single-character separator. -/
def joinWith (sep : Char) : List (List Char) → List Char
  | [] => []
  | [x] => x
  | x :: xs => x ++ sep :: joinWith sep xs

/-- Python substring containment `needle in hay`. -/
def isSubstr (needle hay : List Char) : Bool :=
  hay.tails.any (fun t => needle.isPrefixOf t)

/-- Python `str.lower()` (ASCII case mapping; the inputs of interest are ASCII). -/
def lowerChars (s : List Char) : List Char := s.map Char.toLower

/-- Whitespace for Python `str.strip()` / `\s` (the ASCII whitespace class). -/
def pyIsSpace (c : Char) : Bool :=
  c = ' ' ∨ c = '\t' ∨ c = '\n' ∨ c = '\r' ∨ c = '\x0b' ∨ c = '\x0c'

/-- Python `str.strip()` with no argument (strip whitespace from both ends). -/
def stripChars (s : List Char) : List Char :=
  ((s.dropWhile pyIsSpace).reverse.dropWhile pyIsSpace).reverse

/-- Python `str.strip()` on a `String`. -/
def stripStr (s : String) : String := String.mk (stripChars s.data)

/-- Python `str.lower()` on a `String`. -/
def lowerStr (s : String) : String := String.mk (lowerChars s.data)

/-! ## Model of CPython `urllib.parse` (the subset the auditor uses) -/

/-- Characters allowed in a URL scheme (CPython `scheme_chars`). -/
def schemeChars : List Char :=
  "abcdefghijklmnopqrstuvwxyzABCDEFGHIJKLMNOPQRSTUVWXYZ0123456789+-.".data

/-- CPython `uses_relative`. -/
def usesRelative : List (List Char) :=
  ["", "ftp", "http", "gopher", "nntp", "imap", "wais", "file", "https",
   "shttp", "mms", "prospero", "rtsp", "rtspu", "sftp", "svn", "svn+ssh",
   "ws", "wss"].map String.data

/-- CPython `uses_netloc`. -/
def usesNetloc : List (List Char) :=
  ["", "ftp", "http", "gopher", "nntp", "telnet", "imap", "wais", "file",
   "mms", "https", "shttp", "snews", "prospero", "rtsp", "rtspu", "rsync",
   "svn", "svn+ssh", "sftp", "nfs", "git", "git+ssh", "ws", "wss",
   "itms-services"].map String.data

/-- CPython `uses_params`. -/
def usesParams : List (List Char) :=
  ["", "ftp", "hdl", "prospero", "http", "imap", "mailto", "mms", "news",
   "nntp", "pop", "rtsp", "rtspu", "sftp", "sip", "sips", "snews", "svn",
   "svn+ssh", "telnet", "wais", "ws", "wss", "https"].map String.data

/-- CPython `urlsplit` input cleaning: `lstrip` of C0 controls and space,
then removal of tab, carriage return and newline everywhere. -/
def cleanUrl (s : List Char) : List Char :=
  (s.dropWhile (fun c => c.toNat ≤ 32)).filter
    (fun c => ¬ (c = '\t' ∨ c = '\r' ∨ c = '\n'))

/-- CPython `urlsplit` cleaning of the default-scheme argument: `strip` of C0
controls and space, then removal of tab, carriage return and newline. -/
def cleanScheme (s : List Char) : List Char :=
  (((s.dropWhile (fun c => c.toNat ≤ 32)).reverse.dropWhile
      (fun c => c.toNat ≤ 32)).reverse).filter
    (fun c => ¬ (c = '\t' ∨ c = '\r' ∨ c = '\n'))

/-- Result of CPython `urlsplit`. -/
structure SplitResult where
  scheme : List Char
  netloc : List Char
  path : List Char
  query : List Char
  fragment : List Char
deriving DecidableEq

/-- Result of CPython `urlparse` (`urlsplit` plus the params component). -/
structure ParseResult where
  scheme : List Char
  netloc : List Char
  path : List Char
  params : List Char
  query : List Char
  fragment : List Char
deriving DecidableEq

/-- CPython `_splitnetloc(url, 2)`, applied here to `url.drop 2`: the netloc
runs until the first of `/`, `?`, `#`; the remainder keeps the delimiter. -/
def splitNetloc (s : List Char) : List Char × List Char :=
  let netloc := s.takeWhile (fun c => ¬ (c = '/' ∨ c = '?' ∨ c = '#'))
  (netloc, s.drop netloc.length)

/-- Fragment then query extraction of CPython `urlsplit` (fragment is split
off at the first `#` before the query is split off at the first `?`). -/
def splitFragQuery (url : List Char) : List Char × List Char × List Char :=
  let fr := if url.contains '#' then splitOnFirst '#' url else (url, [])
  let qu := if fr.1.contains '?' then splitOnFirst '?' fr.1 else (fr.1, [])
  (qu.1, qu.2, fr.2)

/-- CPython `_checknetloc`, the NFKC validation of authorities: an empty or
all-ASCII netloc always passes (`if not netloc or netloc.isascii():
return`).  For a non-ASCII netloc CPython raises `ValueError` iff the NFKC
normalization of the netloc (with `@`, `:`, `#`, `?` removed) differs from
it and contains one of `/?#@:` — e.g. `℀` normalizes to `a/c` and raises.
The Unicode NFKC table is outside this model, so the model rejects *every*
non-ASCII authority with the ValueError: an over-approximation of the raise
(authorities NFKC leaves unchanged, such as `é.com`, do not raise in
CPython), exact on ASCII input — and the totality theorem below restricts
itself to ASCII input accordingly. -/
def checknetloc (netloc : List Char) : Except String Unit :=
  if netloc = [] ∨ netloc.all (fun c => c.toNat ≤ 127) then .ok ()
  else .error "netloc contains invalid characters under NFKC normalization"

/-- CPython `urlsplit(url, scheme)` with `allow_fragments=True`.  The
failure paths are the mismatched-square-bracket authority check
(`raise ValueError("Invalid IPv6 URL")`) and the `_checknetloc` NFKC
validation (see `checknetloc`; in the no-authority branch the netloc is
empty, so `_checknetloc` passes trivially and the call is omitted). -/
def urlsplitE (url0 scheme0 : List Char) : Except String SplitResult :=
  let url := cleanUrl url0
  let defScheme := cleanScheme scheme0
  let sp :=
    if url.contains ':' then
      let pr := splitOnFirst ':' url
      if pr.1 ≠ [] ∧ (pr.1.headD ' ').isAlpha ∧ pr.1.all (fun c => schemeChars.contains c) then
        (lowerChars pr.1, pr.2)
      else (defScheme, url)
    else (defScheme, url)
  let scheme := sp.1
  let rest := sp.2
  if rest.take 2 = ['/', '/'] then
    let nl := splitNetloc (rest.drop 2)
    if (nl.1.contains '[' ∧ ¬ nl.1.contains ']') ∨
       (nl.1.contains ']' ∧ ¬ nl.1.contains '[') then
      .error "Invalid IPv6 URL"
    else
      let pqf := splitFragQuery nl.2
      match checknetloc nl.1 with
      | .error e => .error e
      | .ok _ => .ok ⟨scheme, nl.1, pqf.1, pqf.2.1, pqf.2.2⟩
  else
    let pqf := splitFragQuery rest
    .ok ⟨scheme, [], pqf.1, pqf.2.1, pqf.2.2⟩

/-- CPython `_splitparams`: split the params off the last path segment. -/
def splitparams (url : List Char) : List Char × List Char :=
  if url.contains '/' then
    let rs := splitOnFirst '/' url.reverse
    let afterLast := rs.1.reverse
    let upto := url.take (url.length - afterLast.length)
    if afterLast.contains ';' then
      let ab := splitOnFirst ';' afterLast
      (upto ++ ab.1, ab.2)
    else (url, [])
  else if url.contains ';' then splitOnFirst ';' url
  else (url, [])

/-- CPython `urlparse(url, scheme)` with `allow_fragments=True`. -/
def urlparseE (url scheme : List Char) : Except String ParseResult :=
  match urlsplitE url scheme with
  | .error e => .error e
  | .ok sp =>
    if usesParams.contains sp.scheme ∧ sp.path.contains ';' then
      let pp := splitparams sp.path
      .ok ⟨sp.scheme, sp.netloc, pp.1, pp.2, sp.query, sp.fragment⟩
    else
      .ok ⟨sp.scheme, sp.netloc, sp.path, [], sp.query, sp.fragment⟩

/-- CPython `urlunsplit`. -/
def urlunsplit (u : SplitResult) : List Char :=
  let url := u.path
  let url :=
    if u.netloc ≠ [] ∨ (url ≠ [] ∧ url.take 2 = ['/', '/']) then
      let url := if url ≠ [] ∧ url.take 1 ≠ ['/'] then '/' :: url else url
      '/' :: '/' :: (u.netloc ++ url)
    else url
  let url := if u.scheme ≠ [] then u.scheme ++ ':' :: url else url
  let url := if u.query ≠ [] then url ++ '?' :: u.query else url
  if u.fragment ≠ [] then url ++ '#' :: u.fragment else url

/-- CPython `urlunparse`. -/
def urlunparse (p : ParseResult) : List Char :=
  let url := if p.params ≠ [] then p.path ++ ';' :: p.params else p.path
  urlunsplit ⟨p.scheme, p.netloc, url, p.query, p.fragment⟩

/-- Middle filtering in CPython `urljoin`: `segments[1:-1] = filter(None,
segments[1:-1])` (drop empty segments, keeping the first and last). -/
def middleFilter (l : List (List Char)) : List (List Char) :=
  match l with
  | [] => []
  | [a] => [a]
  | a :: rest =>
    match rest.reverse with
    | [] => [a]
    | last :: midrev => a :: (midrev.reverse.filter (fun x => x ≠ [])) ++ [last]

/-- The `..`/`.` resolution loop of CPython `urljoin`. -/
def resolveSegments (segments : List (List Char)) : List (List Char) :=
  segments.foldl
    (fun acc seg =>
      if seg = ['.', '.'] then acc.dropLast
      else if seg = ['.'] then acc
      else acc ++ [seg]) []

/-- The relative-path resolution of CPython `urljoin` (the tail of the
function, from `base_parts = bpath.split('/')` to the final path). -/
def joinPath (bpath rpath : List Char) : List Char :=
  let baseParts0 := splitAll '/' bpath
  let baseParts := if baseParts0.getLast? ≠ some [] then baseParts0.dropLast else baseParts0
  let segments :=
    if rpath.take 1 = ['/'] then splitAll '/' rpath
    else middleFilter (baseParts ++ splitAll '/' rpath)
  let resolved := resolveSegments segments
  let resolved :=
    if segments.getLast? = some ['.'] ∨ segments.getLast? = some ['.', '.'] then
      resolved ++ [[]]
    else resolved
  let joined := joinWith '/' resolved
  if joined = [] then ['/'] else joined

/-- CPython `urljoin(base, url)` with `allow_fragments=True`. -/
def urljoinE (base url : List Char) : Except String (List Char) :=
  if base = [] then .ok url
  else if url = [] then .ok base
  else
    match urlparseE base [] with
    | .error e => .error e
    | .ok b =>
    match urlparseE url b.scheme with
    | .error e => .error e
    | .ok r =>
    if r.scheme ≠ b.scheme ∨ ¬ usesRelative.contains r.scheme then .ok url
    else if usesNetloc.contains r.scheme ∧ r.netloc ≠ [] then
      .ok (urlunparse ⟨r.scheme, r.netloc, r.path, r.params, r.query, r.fragment⟩)
    else
      let netloc := if usesNetloc.contains r.scheme then b.netloc else r.netloc
      if r.path = [] ∧ r.params = [] then
        let query := if r.query = [] then b.query else r.query
        .ok (urlunparse ⟨r.scheme, netloc, b.path, b.params, query, r.fragment⟩)
      else
        .ok (urlunparse ⟨r.scheme, netloc, joinPath b.path r.path,
          r.params, r.query, r.fragment⟩)

/-! ## Configuration constants of the auditor (`LIMITS`) -/

def LIMITS_TITLE_MIN : Nat := 50
def LIMITS_TITLE_MAX : Nat := 60
def LIMITS_META_MIN : Nat := 140
def LIMITS_META_MAX : Nat := 155
def LIMITS_H1_MIN : Nat := 50
def LIMITS_H1_MAX : Nat := 70
def LIMITS_SLUG_MIN : Nat := 40
def LIMITS_SLUG_MAX : Nat := 60
def LIMITS_ALT_MIN : Nat := 100
def LIMITS_ALT_MAX : Nat := 125

/-! ## Helper functions of the auditor -/

/-- `normalize_url(href, base)`: resolve and normalize a URL against a base
URL and drop the fragment; an empty (falsy) href returns the base. -/
def normalize_url (href base : String) : Except String String :=
  if href = "" then .ok base
  else
    match urljoinE base.data href.data with
    | .error e => .error e
    | .ok absu =>
      match urlparseE absu [] with
      | .error e => .error e
      | .ok p => .ok (String.mk (urlunparse { p with fragment := [] }))

/-- `strip_params(u)`: drop the query string. -/
def strip_params (u : String) : Except String String :=
  match urlparseE u.data [] with
  | .error e => .error e
  | .ok p => .ok (String.mk (urlunparse { p with query := [] }))

/-- `host_of(u)`: the lowercased netloc, or `""` when parsing raises
(the source wraps the parse in `try`/`except`). -/
def host_of (u : String) : String :=
  match urlparseE u.data [] with
  | .ok p => String.mk (lowerChars p.netloc)
  | .error _ => ""

/-- `path_slug(u)`: the last non-empty path segment, or `""`. -/
def path_slug (u : String) : Except String String :=
  match urlparseE u.data [] with
  | .error e => .error e
  | .ok p =>
    let parts := (splitAll '/' p.path).filter (fun x => x ≠ [])
    .ok (String.mk (parts.getLast?.getD []))

/-- `should_skip(u, meta_robots, x_robots)`: label common noise endpoints,
returning `(skip, reason)`.  The source applies its rules in order with
first match winning. -/
def should_skip (u meta_robots x_robots : String) : Except String (Bool × String) :=
  if u = "" then .ok (false, "")
  else
    match urlparseE u.data [] with
    | .error e => .error e
    | .ok p =>
    let path := if p.path = [] then "/".data else p.path
    let low := lowerChars path
    if "/cart".data.isPrefixOf low ∨ "/checkout".data.isPrefixOf low then
      .ok (true, "Cart/Checkout")
    else if "/account".data.isPrefixOf low ∨ "/orders".data.isPrefixOf low then
      .ok (true, "Account")
    else if "/apps/".data.isPrefixOf low ∨ "/admin".data.isPrefixOf low ∨
            "/tools/".data.isPrefixOf low then
      .ok (true, "Admin/Apps")
    else if "/customer_authentication/".data.isPrefixOf low then
      .ok (true, "Auth redirect")
    else if "/policies/".data.isPrefixOf low then
      .ok (true, "Policies")
    else
      let parts := (splitAll '/' low).filter (fun x => x ≠ [])
      if parts.length = 2 ∧ parts.headD [] = "blogs".data then
        .ok (true, "Blog index")
      else
        let mr := lowerChars meta_robots.data
        let xr := lowerChars x_robots.data
        if isSubstr "noindex".data mr ∨ isSubstr "noindex".data xr then
          .ok (true, "Noindex")
        else
          .ok (false, "")

/-! ## Data model -/

/-- `Edge` dataclass: one record per discovered same-host hyperlink. -/
structure Edge where
  source : String
  target : String
  anchor : Option String
  rel : Option String
deriving DecidableEq

/-- `ImageInfo` dataclass. -/
structure ImageInfo where
  src : String
  alt : String
  filename : String
deriving DecidableEq

/-- `PageRecord` dataclass with the source's field defaults.  The single
`Optional[float]` field `cwv_cls` is omitted from the model (floating point;
never read or written by the logic under verification). -/
structure PageRecord where
  url : String
  final_url : Option String := none
  status : Option Nat := none
  content_type : Option String := none
  content_length : Option Nat := none
  title : Option String := none
  meta_description : Option String := none
  canonical : Option String := none
  meta_robots : Option String := none
  x_robots_tag : Option String := none
  h1 : Option String := none
  h2 : Option String := none
  word_count : Option Nat := none
  image_count : Option Nat := none
  images_missing_alt : Option Nat := none
  inlinks : Nat := 0
  outlinks : Nat := 0
  hreflang_count : Nat := 0
  jsonld_types : Option String := none
  https : Option Bool := none
  mixed_content : Nat := 0
  hsts : Option Bool := none
  cache_control : Option String := none
  vary : Option String := none
  charset : Option String := none
  x_content_type_options : Option String := none
  param_risk : Option String := none
  psi_mobile_score : Option Nat := none
  psi_desktop_score : Option Nat := none
  cwv_lcp_ms : Option Nat := none
  cwv_inp_ms : Option Nat := none
  body_hash : Option String := none
  images : List ImageInfo := []
deriving DecidableEq

/-! ## The `<img>` walk of `fetch_page` (mixed content, alt text, filenames) -/

/-- One parsed `<img>` element: the attributes the source reads. -/
structure ImgTag where
  src : Option String
  data_src : Option String
  data_image : Option String
  alt : Option String
deriving DecidableEq

/-- Python `img.get("src") or img.get("data-src") or img.get("data-image")`,
with the subsequent `if not src: continue` guard folded in: `none` means the
element is skipped (a missing attribute is `None`, and `""` is falsy too). -/
def imgPickSrc (i : ImgTag) : Option String :=
  let pick : Option String → Option String := fun o =>
    match o with
    | some s => if s = "" then none else some s
    | none => none
  match pick i.src with
  | some s => some s
  | none =>
    match pick i.data_src with
    | some s => some s
    | none => pick i.data_image

/-- The `<img>` loop of `fetch_page` (source lines 333-352): returns the
collected `ImageInfo` list, the count of images with empty alt text, and the
mixed-content count. -/
def processImages (final_u : String) (imgs : List ImgTag) :
    Except String (List ImageInfo × Nat × Nat) :=
  imgs.foldlM
    (fun acc img =>
      match imgPickSrc img with
      | none => .ok acc
      | some src => do
        let src_abs ← normalize_url src final_u
        let mixed := if "http://".data.isPrefixOf src_abs.data ∧
            "https://".data.isPrefixOf final_u.data
          then acc.2.2 + 1 else acc.2.2
        let alt := stripStr (img.alt.getD "")
        let missing := if alt = "" then acc.2.1 + 1 else acc.2.1
        let fn ← path_slug src_abs
        .ok (acc.1 ++ [⟨src_abs, alt, fn⟩], missing, mixed))
    ([], 0, 0)

/-! ## Crawl Controller (`Auditor.crawl`) -/

/-- The crawl-relevant configuration of an `Auditor` instance. -/
structure Auditor where
  start_url : String
  max_pages : Nat
  max_depth : Nat
  include_params : Bool
  host : String

/-- `Auditor.__init__`: the start URL is right-stripped of `/` and the host
is computed from it. -/
def Auditor.init (start_url : String) (max_pages max_depth : Nat)
    (include_params : Bool) : Auditor :=
  let su := String.mk (start_url.data.reverse.dropWhile (fun c => c = '/')).reverse
  { start_url := su, max_pages := max_pages, max_depth := max_depth,
    include_params := include_params, host := host_of su }

/-- One discovered link as returned by `fetch_page`: `(href, anchor, rel)`. -/
structure Link where
  href : String
  anchor : Option String
  rel : Option String
deriving DecidableEq

/-- The environment of a crawl: what `fetch_page(u)` would produce for each
URL.  `none` models `fetch_page` raising an exception for that URL. -/
def Site : Type := String → Option (PageRecord × List Link)

/-- The mutable state of `Auditor.crawl`.  `fetchLog` is ghost
instrumentation recording each invocation of `fetch_page` as `(url, depth)`,
in order; the crawl itself never reads it. -/
structure CrawlState where
  seen : List String
  queue : List (String × Nat)
  pages : List (String × PageRecord)
  edges : List Edge
  fetchLog : List (String × Nat)
deriving DecidableEq

/-- Python dict assignment `d[k] = v`: replace in place if the key exists,
otherwise append. -/
def dictInsert (k : String) (v : PageRecord) (d : List (String × PageRecord)) :
    List (String × PageRecord) :=
  if d.any (fun p => p.1 = k) then
    d.map (fun p => if p.1 = k then (k, v) else p)
  else d ++ [(k, v)]

/-- Python `rec.final_url or rec.url` (`None` and `""` are both falsy). -/
def pageKey (rec : PageRecord) : String :=
  match rec.final_url with
  | some f => if f = "" then rec.url else f
  | none => rec.url

/-- The frontier dedupe key of a normalized URL (source line 233):
the URL itself when `--include-params` is set, else its
parameter-stripped form. -/
def linkKey (a : Auditor) (absu : String) : Except String String :=
  if a.include_params then .ok absu else strip_params absu

/-- Processing of one discovered link (source lines 229-237): normalize,
reject foreign hosts, enqueue if unseen and not noise, and append an `Edge`
regardless of the enqueue decision. -/
def processLink (a : Auditor) (src : String) (depth : Nat) (s : CrawlState)
    (lnk : Link) : Except String CrawlState :=
  match normalize_url lnk.href src with
  | .error e => .error e
  | .ok absu =>
    if host_of absu ≠ a.host then .ok s
    else
      match linkKey a absu with
      | .error e => .error e
      | .ok key =>
        let enq : Except String Bool :=
          if s.seen.contains key then .ok false
          else
            match should_skip absu "" "" with
            | .error e => .error e
            | .ok sk => .ok (!sk.1)
        match enq with
        | .error e => .error e
        | .ok enq =>
          let s1 :=
            if enq then
              { s with seen := s.seen ++ [key], queue := s.queue ++ [(absu, depth + 1)] }
            else s
          .ok { s1 with edges := s1.edges ++ [⟨src, absu, lnk.anchor, lnk.rel⟩] }

/-- The `for href, anchor, rel in links` loop.  A raised exception (`.error`)
aborts the loop, keeping the state changes already made (`true` flags the
uncaught exception, which would propagate out of `crawl`). -/
def processLinks (a : Auditor) (src : String) (depth : Nat) :
    CrawlState → List Link → CrawlState × Bool
  | s, [] => (s, false)
  | s, l :: rest =>
    match processLink a src depth s l with
    | .ok s2 => processLinks a src depth s2 rest
    | .error _ => (s, true)

/-- The result of the `fetch_page` call wrapped in `try`/`except`
(source lines 219-224): an exception produces the minimal error record. -/
def fetchModel (site : Site) (u : String) : PageRecord × List Link :=
  match site u with
  | some r => r
  | none => ({ url := u, final_url := some u, status := none }, [])

/-- The `while` loop of `Auditor.crawl`, indexed by fuel (an upper bound on
the number of iterations; the returned `Bool` is `true` when an uncaught
exception aborted the loop). -/
def crawlLoop (a : Auditor) (site : Site) : Nat → CrawlState → CrawlState × Bool
  | 0, s => (s, false)
  | fuel + 1, s =>
    match s.queue with
    | [] => (s, false)
    | (u, depth) :: rest =>
      if s.pages.length < a.max_pages then
        let rl := fetchModel site u
        let s1 : CrawlState :=
          { s with queue := rest,
                   fetchLog := s.fetchLog ++ [(u, depth)],
                   pages := dictInsert (pageKey rl.1) rl.1 s.pages }
        if depth < a.max_depth then
          match processLinks a (pageKey rl.1) depth s1 rl.2 with
          | (s2, false) => crawlLoop a site fuel s2
          | (s2, true) => (s2, true)
        else crawlLoop a site fuel s1
      else (s, false)

/-- The seeding of `crawl` (source lines 211-215): the queue receives the
start URL at depth 0, then its dedupe key enters `seen`.  If the key
computation raises, the exception leaves the freshly seeded queue behind. -/
def initState (a : Auditor) : CrawlState × Bool :=
  match linkKey a a.start_url with
  | .ok k =>
    ({ seen := [k], queue := [(a.start_url, 0)], pages := [], edges := [],
       fetchLog := [] }, false)
  | .error _ =>
    ({ seen := [], queue := [(a.start_url, 0)], pages := [], edges := [],
       fetchLog := [] }, true)

/-- The inlink/outlink backfill after the loop (source lines 243-247). -/
def computeLinkCounts (edges : List Edge) (pages : List (String × PageRecord)) :
    List (String × PageRecord) :=
  pages.map (fun p =>
    (p.1, { p.2 with
      outlinks := (edges.filter (fun e => e.source = p.1)).length,
      inlinks := (edges.filter (fun e => e.target = p.1)).length }))

/-- `Auditor.crawl`, as seeding, bounded loop, and link-count backfill.  The
`Bool` is `true` when an uncaught exception aborted the crawl (in which case
the backfill never runs). -/
def Auditor.crawl (a : Auditor) (site : Site) (fuel : Nat) : CrawlState × Bool :=
  match initState a with
  | (s, true) => (s, true)
  | (s, false) =>
    match crawlLoop a site fuel s with
    | (s2, true) => (s2, true)
    | (s2, false) => ({ s2 with pages := computeLinkCounts s2.edges s2.pages }, false)

/-! ## Issues builder (`build_issues`) -/

/-- One issue row `{"Reason": ..., "Details": ..., "Severity": ...}`. -/
structure Issue where
  reason : String
  details : String
  severity : String
deriving DecidableEq

/-- `sev_rank`: rank of a severity string (unknown strings rank 0). -/
def sev_rank (s : String) : Nat :=
  if s = "Info" then 0
  else if s = "Minor" then 1
  else if s = "Moderate" then 2
  else if s = "Major" then 3
  else if s = "Critical" then 4
  else 0

/-- The regex test `re.search(r"\s*[-–—|:]+\s*$", title)`: after dropping
trailing whitespace, the string ends in one of the separator characters. -/
def titleEndsSep (title : String) : Bool :=
  match title.data.reverse.dropWhile pyIsSpace with
  | [] => false
  | c :: _ => ['-', '–', '—', '|', ':'].contains c

/-- Python `title[-6:]`: the last (up to) six characters. -/
def lastSix (title : String) : String :=
  String.mk (title.data.reverse.take 6).reverse

/-- The per-page issue items of `build_issues` (the body of the loop at
source lines 426-453), given the duplicate-title and duplicate-description
sets already computed from the whole page collection. -/
def pageItems (dup_titles dup_descs : List String) (r : PageRecord) : List Issue :=
  let title := stripStr (r.title.getD "")
  let desc := stripStr (r.meta_description.getD "")
  let tlen := title.length
  let dlen := desc.length
  let items : List Issue := []
  let items := items ++
    (if 0 < tlen ∧ tlen < LIMITS_TITLE_MIN then
      [⟨"Title too short", s!"{tlen} chars (<{LIMITS_TITLE_MIN})", "Minor"⟩]
    else if tlen > LIMITS_TITLE_MAX then
      [⟨"Title too long", s!"{tlen} chars (>{LIMITS_TITLE_MAX})", "Minor"⟩]
    else [])
  let items := items ++
    (if titleEndsSep title then
      [⟨"Title ends with separator", lastSix title, "Minor"⟩]
    else [])
  let items := items ++
    (if 0 < dlen ∧ dlen < LIMITS_META_MIN then
      [⟨"Meta description too short", s!"{dlen} chars (<{LIMITS_META_MAX})", "Minor"⟩]
    else if dlen > LIMITS_META_MAX then
      [⟨"Meta description too long", s!"{dlen} chars (>{LIMITS_META_MAX})", "Minor"⟩]
    else [])
  let items := items ++
    (if dup_titles.contains (lowerStr (stripStr title)) ∧ title ≠ "" then
      [⟨"Duplicate title", "Appears on multiple URLs", "Moderate"⟩]
    else [])
  let items := items ++
    (if dup_descs.contains (lowerStr (stripStr desc)) ∧ desc ≠ "" then
      [⟨"Duplicate meta description", "Appears on multiple URLs", "Minor"⟩]
    else [])
  items

/-- The non-empty lowercased stripped titles of the page collection, one per
page (the values grouped into `title_to_urls`). -/
def titleKeys (pages : List (String × PageRecord)) : List String :=
  (pages.map (fun p => lowerStr (stripStr (p.2.title.getD "")))).filter
    (fun t => t ≠ "")

/-- As `titleKeys`, for meta descriptions. -/
def descKeys (pages : List (String × PageRecord)) : List String :=
  (pages.map (fun p => lowerStr (stripStr (p.2.meta_description.getD "")))).filter
    (fun d => d ≠ "")

/-- The keys that occur on more than one page (`dup_titles` / `dup_descs`:
buckets with at least two URLs). -/
def dupKeys (keys : List String) : List String :=
  keys.filter (fun k => 2 ≤ keys.count k)

/-- Python `max(items, key=lambda x: sev_rank(x["Severity"]))["Severity"]`:
the severity of the first item of maximal rank. -/
def topSeverity : List Issue → String
  | [] => ""
  | i :: rest =>
    (rest.foldl (fun b x => if sev_rank x.severity > sev_rank b.severity then x else b)
      i).severity

/-- `build_issues(pages)`: for each page with a non-empty item list, the pair
of its top severity (the head dict `{"Top Severity": top}`) and its items. -/
def build_issues (pages : List (String × PageRecord)) :
    List (String × String × List Issue) :=
  let dupT := dupKeys (titleKeys pages)
  let dupD := dupKeys (descKeys pages)
  pages.filterMap (fun p =>
    let items := pageItems dupT dupD p.2
    if items ≠ [] then some (p.1, topSeverity items, items) else none)

/-! ## Concrete test sites for the behavioural scenarios -/

/-- A successfully fetched page with no redirect. -/
def okRec (u : String) : PageRecord :=
  { url := u, final_url := some u, status := some 200 }

/-- The synthetic breadth-first site of the spec: A links to B and C,
B links to D. -/
def demoSite : Site := fun u =>
  if u = "https://s.com" then
    some (okRec u, [⟨"/b", none, none⟩, ⟨"/c", none, none⟩])
  else if u = "https://s.com/b" then some (okRec u, [⟨"/d", none, none⟩])
  else if u = "https://s.com/c" then some (okRec u, [])
  else if u = "https://s.com/d" then some (okRec u, [])
  else none

def demoAuditor : Auditor := Auditor.init "https://s.com/" 100 5 false

/-- A two-hop chain crawled with `max_depth = 1`: the home page links to
`/a`, and `/a` (dequeued at the maximum depth) links to `/b`. -/
def depthSite : Site := fun u =>
  if u = "https://s.com" then some (okRec u, [⟨"/a", none, none⟩])
  else if u = "https://s.com/a" then some (okRec u, [⟨"/b", none, none⟩])
  else none

def depthAuditor : Auditor := Auditor.init "https://s.com/" 10 1 false

end SeoAudit

namespace SeoAudit

/-! ## Claim theorems -/

/-- **C2, counterexample.**  `normalize_url` is not total: the malformed href
`"http://["` raises `ValueError("Invalid IPv6 URL")` inside `urlparse`
(there is no `try`/`except` in `normalize_url`), and an empty href yields
the base URL, not an empty result. -/
theorem normalize_url_raises_cex :
    normalize_url "http://[" "https://example.com/" = .error "Invalid IPv6 URL" ∧
    normalize_url "" "https://example.com/" = .ok "https://example.com/" := by
  constructor
  · rfl
  · rfl

/-- **C9.**  On an https page, the mixed-content counter of the `<img>` walk
counts exactly the images whose src resolves to an `http://` URL: an
`http://` src increments it, an `https://` src does not, and a
scheme-relative `//` src (which resolves to https against the https base)
does not; combining the three yields a count of one. -/
theorem mixed_content_detection :
    processImages "https://ex.com/p"
        [⟨some "http://cdn.com/a.png", none, none, some "x"⟩] =
      .ok ([⟨"http://cdn.com/a.png", "x", "a.png"⟩], 0, 1) ∧
    processImages "https://ex.com/p"
        [⟨some "https://cdn.com/a.png", none, none, some "x"⟩] =
      .ok ([⟨"https://cdn.com/a.png", "x", "a.png"⟩], 0, 0) ∧
    processImages "https://ex.com/p"
        [⟨some "//cdn.com/a.png", none, none, some "x"⟩] =
      .ok ([⟨"https://cdn.com/a.png", "x", "a.png"⟩], 0, 0) ∧
    processImages "https://ex.com/p"
        [⟨some "http://cdn.com/a.png", none, none, some "x"⟩,
         ⟨some "https://cdn.com/b.png", none, none, some "x"⟩,
         ⟨some "//cdn.com/c.png", none, none, some "x"⟩] =
      .ok ([⟨"http://cdn.com/a.png", "x", "a.png"⟩,
            ⟨"https://cdn.com/b.png", "x", "b.png"⟩,
            ⟨"https://cdn.com/c.png", "x", "c.png"⟩], 0, 1) := by
  refine ⟨rfl, rfl, rfl, rfl⟩

/-- **C1, counterexample.**  Edge recording *is* filtered by the depth bound:
with `max_depth = 1`, the page `/a` is dequeued at depth 1, carries a
same-host link to `/b`, and yet the final edge list contains only the single
edge recorded at depth 0 — no edge with source `/a` is recorded. -/
theorem edges_filtered_by_depth_cex :
    (Auditor.crawl depthAuditor depthSite 10).1.edges =
      [⟨"https://s.com", "https://s.com/a", none, none⟩] ∧
    ("https://s.com/a", 1) ∈ (Auditor.crawl depthAuditor depthSite 10).1.fetchLog ∧
    depthAuditor.max_depth = 1 ∧
    depthSite "https://s.com/a" =
      some (okRec "https://s.com/a", [⟨"/b", none, none⟩]) ∧
    normalize_url "/b" "https://s.com/a" = .ok "https://s.com/b" ∧
    host_of "https://s.com/b" = depthAuditor.host := by
  refine ⟨rfl, ?_, rfl, rfl, rfl, rfl⟩
  decide

/-! ### Title and description length bands (C8, C10) -/

/-- A single-page collection carrying only a title. -/
def mkTitlePage (t : String) : PageRecord := { url := "https://x/", title := some t }

/-- The issue items `build_issues` produces for the single page with title
`t` (empty when the page has no issues). -/
def issuesFor (t : String) : List Issue :=
  match build_issues [("https://x/", mkTitlePage t)] with
  | [(_, _, items)] => items
  | _ => []

theorem dupKeys_short (l : List String) (h : l.length ≤ 1) : dupKeys l = [] := by
  match l, h with
  | [], _ => rfl
  | [x], _ => simp [dupKeys, List.count_singleton]

theorem stripStr_empty : stripStr "" = "" := rfl

/-- On a one-page collection both duplicate sets are empty, so
`build_issues` yields exactly the per-page items. -/
theorem issuesFor_eq_pageItems (t : String) :
    issuesFor t = pageItems [] [] (mkTitlePage t) := by
  have hT : dupKeys (titleKeys [("https://x/", mkTitlePage t)]) = [] := by
    apply dupKeys_short
    simp only [titleKeys, mkTitlePage, List.map]
    exact le_trans (List.length_filter_le _ _) (by simp)
  have hD : dupKeys (descKeys [("https://x/", mkTitlePage t)]) = [] := by
    apply dupKeys_short
    simp only [descKeys, mkTitlePage, List.map]
    exact le_trans (List.length_filter_le _ _) (by simp)
  by_cases h : pageItems [] [] (mkTitlePage t) = []
  · simp [issuesFor, build_issues, hT, hD, h]
  · simp [issuesFor, build_issues, hT, hD, h]

/-- With empty duplicate sets and no meta description, the per-page items
are the title-length issue (if any) followed by the separator issue (if
any). -/
theorem pageItems_nil_dups (r : PageRecord) (t : String) (ht : r.title.getD "" = t)
    (hd : r.meta_description = none) :
    pageItems [] [] r =
      (if 0 < (stripStr t).length ∧ (stripStr t).length < LIMITS_TITLE_MIN then
         [⟨"Title too short",
           s!"{(stripStr t).length} chars (<{LIMITS_TITLE_MIN})", "Minor"⟩]
       else if (stripStr t).length > LIMITS_TITLE_MAX then
         [⟨"Title too long",
           s!"{(stripStr t).length} chars (>{LIMITS_TITLE_MAX})", "Minor"⟩]
       else []) ++
      (if titleEndsSep (stripStr t) then
         [⟨"Title ends with separator", lastSix (stripStr t), "Minor"⟩]
       else []) := by
  simp [pageItems, ht, hd, stripStr_empty, LIMITS_META_MAX]

/-- **C8.**  With the configured band `min = 50`, `max = 60`, a (stripped)
title of exactly 50 or 60 characters receives no length issue from
`build_issues`; a 49-character title receives "Title too short" and a
61-character title receives "Title too long", each with severity Minor. -/
theorem title_length_band (t : String) :
    (((stripStr t).length = 50 ∨ (stripStr t).length = 60) →
        ∀ i ∈ issuesFor t, i.reason ≠ "Title too short" ∧ i.reason ≠ "Title too long") ∧
    ((stripStr t).length = 49 →
        (⟨"Title too short", "49 chars (<50)", "Minor"⟩ : Issue) ∈ issuesFor t) ∧
    ((stripStr t).length = 61 →
        (⟨"Title too long", "61 chars (>60)", "Minor"⟩ : Issue) ∈ issuesFor t) := by
  have hb := issuesFor_eq_pageItems t
  rw [pageItems_nil_dups (mkTitlePage t) t rfl rfl] at hb
  refine ⟨?_, ?_, ?_⟩
  · intro h i hi
    rcases h with h | h <;> rw [hb, h] at hi <;>
      norm_num [LIMITS_TITLE_MIN, LIMITS_TITLE_MAX] at hi <;>
      · obtain ⟨-, rfl⟩ := hi
        exact ⟨by simp, by simp⟩
  · intro h
    rw [hb, h]
    norm_num [LIMITS_TITLE_MIN, LIMITS_TITLE_MAX]
    left
    decide
  · intro h
    rw [hb, h]
    norm_num [LIMITS_TITLE_MIN, LIMITS_TITLE_MAX]
    left
    decide

def title49 : String := String.mk (List.replicate 49 'a')
def title61 : String := String.mk (List.replicate 61 'a')

/-- A 50-character title that ends in a separator, so that the band theorem
can be exercised on an in-band title that still has an issue item. -/
def title50sep : String := String.mk (List.replicate 49 'a' ++ [':'])

/-- Witness for `title_length_band` at concrete titles of lengths 50, 49
and 61. -/
theorem title_length_band_witness :
    ((⟨"Title ends with separator", "aaaaa:", "Minor"⟩ : Issue).reason ≠ "Title too short" ∧
     (⟨"Title ends with separator", "aaaaa:", "Minor"⟩ : Issue).reason ≠ "Title too long") ∧
    (⟨"Title too short", "49 chars (<50)", "Minor"⟩ : Issue) ∈ issuesFor title49 ∧
    (⟨"Title too long", "61 chars (>60)", "Minor"⟩ : Issue) ∈ issuesFor title61 :=
  ⟨(title_length_band title50sep).1 (Or.inl (by decide)) _ (by decide),
   (title_length_band title49).2.1 (by decide),
   (title_length_band title61).2.2 (by decide)⟩

/-- **C10.**  `build_issues` never emits a short-length issue for an empty
field: a page whose (stripped) title has length 0 receives no
"Title too short" item, and one whose meta description has length 0
receives no "Meta description too short" item, because both short-length
checks also require the length to be strictly positive. -/
theorem empty_field_no_length_issue (dupT dupD : List String) (r : PageRecord) :
    ((stripStr (r.title.getD "")).length = 0 →
      ∀ i ∈ pageItems dupT dupD r, i.reason ≠ "Title too short") ∧
    ((stripStr (r.meta_description.getD "")).length = 0 →
      ∀ i ∈ pageItems dupT dupD r, i.reason ≠ "Meta description too short") := by
  constructor
  · intro h i hi
    simp only [pageItems] at hi
    rw [h] at hi
    norm_num at hi
    rcases hi with ⟨-, rfl⟩ | hi | ⟨⟨-, -⟩, rfl⟩ | ⟨⟨-, -⟩, rfl⟩
    · simp
    · split at hi <;> simp at hi <;>
        first
        | (subst hi; simp)
        | (obtain ⟨-, rfl⟩ := hi; simp)
    · simp
    · simp
  · intro h i hi
    simp only [pageItems] at hi
    rw [h] at hi
    norm_num at hi
    rcases hi with hi | ⟨-, rfl⟩ | ⟨⟨-, -⟩, rfl⟩ | ⟨⟨-, -⟩, rfl⟩
    · split at hi <;> simp at hi <;>
        first
        | (subst hi; simp)
        | (obtain ⟨-, rfl⟩ := hi; simp)
    · simp
    · simp
    · simp

/-- An empty-titled page that still produces an item (overlong description). -/
def emptyTitleRec : PageRecord :=
  { url := "https://x/", title := some "",
    meta_description := some (String.mk (List.replicate 156 'b')) }

/-- An empty-description page that still produces an item (overlong title). -/
def emptyDescRec : PageRecord :=
  { url := "https://x/", title := some (String.mk (List.replicate 61 'b')),
    meta_description := some "" }

/-- Witness for `empty_field_no_length_issue` at concrete records with an
empty title and an empty description. -/
theorem empty_field_no_length_issue_witness :
    (⟨"Meta description too long", "156 chars (>155)", "Minor"⟩ : Issue).reason ≠
      "Title too short" ∧
    (⟨"Title too long", "61 chars (>60)", "Minor"⟩ : Issue).reason ≠
      "Meta description too short" :=
  ⟨(empty_field_no_length_issue [] [] emptyTitleRec).1 (by decide) _ (by decide),
   (empty_field_no_length_issue [] [] emptyDescRec).2 (by decide) _ (by decide)⟩

/-! ### Noise-classifier rule order (C6) -/

/-- **C6.**  `should_skip` applies its rules in order with first match
winning: whenever the lowercased path begins with `/cart` or `/checkout`,
the result is `(True, "Cart/Checkout")` regardless of the robots arguments;
and `(True, "Noindex")` is returned only when the purely path-based
classification is not-noise (no earlier rule matched) and one of the robots
signals contains `noindex` case-insensitively. -/
theorem should_skip_rule_order (u mr xr : String) (p : ParseResult)
    (hp : urlparseE u.data [] = .ok p) (hu : u ≠ "") :
    (("/cart".data.isPrefixOf (lowerChars (if p.path = [] then "/".data else p.path)) ∨
      "/checkout".data.isPrefixOf (lowerChars (if p.path = [] then "/".data else p.path))) →
        should_skip u mr xr = .ok (true, "Cart/Checkout")) ∧
    (should_skip u mr xr = .ok (true, "Noindex") →
        should_skip u "" "" = .ok (false, "") ∧
        (isSubstr "noindex".data (lowerChars mr.data) ∨
         isSubstr "noindex".data (lowerChars xr.data))) := by
  constructor
  · intro h
    simp only [should_skip, if_neg hu, hp]
    rw [if_pos h]
  · intro heq
    simp only [should_skip, if_neg hu, hp] at heq ⊢
    repeat' split at heq
    all_goals simp_all
    all_goals try decide
    all_goals
      rename_i hblog hnoidx
      rw [if_neg (fun hc => hblog hc.1 hc.2), if_neg (by decide)]

/-- Witness for `should_skip_rule_order`: a cart URL whose meta robots says
`noindex` is still classified `Cart/Checkout`, and a plain URL classified
`Noindex` under `meta_robots = "NOINDEX"` is not noise path-wise. -/
theorem should_skip_rule_order_witness :
    should_skip "https://ex.com/cart/x" "noindex" "" = .ok (true, "Cart/Checkout") ∧
    (should_skip "https://ex.com/p" "" "" = .ok (false, "") ∧
      (isSubstr "noindex".data (lowerChars "NOINDEX".data) ∨
       isSubstr "noindex".data (lowerChars "".data))) :=
  ⟨(should_skip_rule_order "https://ex.com/cart/x" "noindex" ""
      ⟨"https".data, "ex.com".data, "/cart/x".data, [], [], []⟩
      (by decide) (by decide)).1 (Or.inl (by decide)),
   (should_skip_rule_order "https://ex.com/p" "NOINDEX" ""
      ⟨"https".data, "ex.com".data, "/p".data, [], [], []⟩
      (by decide) (by decide)).2 (by decide)⟩

/-! ### Crawl-loop invariants (C1, C3, C4, C5, C7) -/

/-- Link processing never touches the stored page collection. -/
theorem processLink_pages (a : Auditor) (src : String) (d : Nat) (s : CrawlState)
    (l : Link) (s2 : CrawlState) (h : processLink a src d s l = .ok s2) :
    s2.pages = s.pages := by
  simp only [processLink] at h
  repeat' split at h
  all_goals simp_all
  all_goals (subst h; rfl)

theorem processLinks_pages (a : Auditor) (src : String) (d : Nat) :
    ∀ (ls : List Link) (s : CrawlState),
      (processLinks a src d s ls).1.pages = s.pages := by
  intro ls
  induction ls with
  | nil => intro s; rfl
  | cons l rest ih =>
    intro s
    simp only [processLinks]
    cases hpl : processLink a src d s l with
    | ok s2 => rw [ih s2, processLink_pages a src d s l s2 hpl]
    | error e => rfl

/-- A dict assignment grows the page dict by at most one entry. -/
theorem dictInsert_length (k : String) (v : PageRecord) (d : List (String × PageRecord)) :
    (dictInsert k v d).length ≤ d.length + 1 := by
  unfold dictInsert
  split
  · simp
  · simp

/-- The loop dequeues only while `len(pages) < max_pages` and each iteration
stores at most one new page, so the bound is preserved. -/
theorem crawlLoop_pages_le (a : Auditor) (site : Site) :
    ∀ (fuel : Nat) (s : CrawlState), s.pages.length ≤ a.max_pages →
      (crawlLoop a site fuel s).1.pages.length ≤ a.max_pages := by
  intro fuel
  induction fuel with
  | zero => intro s h; exact h
  | succ n ih =>
    intro s h
    simp only [crawlLoop]
    split
    · exact h
    · rename_i u d rest hq
      split
      · rename_i hcap
        have hlen : (dictInsert (pageKey (fetchModel site u).1) (fetchModel site u).1
            s.pages).length ≤ a.max_pages :=
          le_trans (dictInsert_length _ _ _) (by omega)
        split
        · split
          · rename_i s2 hpl
            apply ih
            have := processLinks_pages a (pageKey (fetchModel site u).1) d
              (fetchModel site u).2
              { s with queue := rest, fetchLog := s.fetchLog ++ [(u, d)],
                       pages := dictInsert (pageKey (fetchModel site u).1)
                         (fetchModel site u).1 s.pages }
            rw [hpl] at this
            simpa using le_trans (le_of_eq (by rw [this])) hlen
          · rename_i s2 hpl
            have := processLinks_pages a (pageKey (fetchModel site u).1) d
              (fetchModel site u).2
              { s with queue := rest, fetchLog := s.fetchLog ++ [(u, d)],
                       pages := dictInsert (pageKey (fetchModel site u).1)
                         (fetchModel site u).1 s.pages }
            rw [hpl] at this
            simpa using le_trans (le_of_eq (by rw [this])) hlen
        · apply ih
          simpa using hlen
      · exact h

/-- Both seed states carry an empty page collection. -/
theorem initState_pages (a : Auditor) :
    ∀ b s, initState a = (s, b) → s.pages = [] := by
  intro b s h
  unfold initState at h
  split at h <;> (cases h; rfl)

/-- **C4.**  For every bound and every site, the crawl never stores more
than `max_pages` page records, at every point during and after the run
(every fuel value), however many links exist or URLs remain enqueued. -/
theorem bound_respect (a : Auditor) (site : Site) (fuel : Nat) :
    (Auditor.crawl a site fuel).1.pages.length ≤ a.max_pages := by
  unfold Auditor.crawl
  split
  · rename_i s hs
    simp [initState_pages a true s hs]
  · rename_i s hs
    have h0 : s.pages.length ≤ a.max_pages := by simp [initState_pages a false s hs]
    have := crawlLoop_pages_le a site fuel s h0
    split
    · rename_i s2 hs2
      rw [hs2] at this
      exact this
    · rename_i s2 hs2
      rw [hs2] at this
      simpa [computeLinkCounts] using this

/-- **C7.**  If the fetch of a dequeued URL raises (modelled `site u = none`),
the step stores the minimal record `PageRecord(url=u, final_url=u,
status=None)` under `u`, treats the link list as empty (edges, seen and the
rest of the queue are untouched), and the loop continues with the next
item — the step equals the continued loop, so no fetch exception escapes. -/
theorem fetch_failure_local (a : Auditor) (site : Site) (fuel : Nat)
    (s : CrawlState) (u : String) (d : Nat) (rest : List (String × Nat))
    (hq : s.queue = (u, d) :: rest) (hf : site u = none)
    (hcap : s.pages.length < a.max_pages) :
    crawlLoop a site (fuel + 1) s =
      crawlLoop a site fuel
        { s with queue := rest,
                 fetchLog := s.fetchLog ++ [(u, d)],
                 pages := dictInsert u { url := u, final_url := some u, status := none }
                   s.pages } := by
  have hkey : pageKey { url := u, final_url := some u, status := none } = u := by
    by_cases h : u = "" <;> simp [pageKey, h]
  simp only [crawlLoop, hq, fetchModel, hf, if_pos hcap, hkey]
  split
  · simp [processLinks]
  · rfl

/-- A site on which every fetch raises. -/
def failSite : Site := fun _ => none

/-- The crawl state right after seeding for the demo auditor. -/
def seedState : CrawlState :=
  ⟨["https://s.com"], [("https://s.com", 0)], [], [], []⟩

/-- Witness for `fetch_failure_local` at a concrete failing fetch of the
seeded start URL. -/
theorem fetch_failure_local_witness :
    crawlLoop demoAuditor failSite 1 seedState =
      crawlLoop demoAuditor failSite 0
        { seedState with
          queue := [],
          fetchLog := seedState.fetchLog ++ [("https://s.com", 0)],
          pages := dictInsert "https://s.com"
            { url := "https://s.com", final_url := some "https://s.com", status := none }
            seedState.pages } :=
  fetch_failure_local demoAuditor failSite 0 seedState "https://s.com" 0 [] rfl rfl
    (by decide)

/-- **C1, amended.**  For a page dequeued at depth strictly below
`max_depth`, every same-host link appends exactly one Edge regardless of the
enqueue decision (noise and already-seen targets included), and a
foreign-host link appends none; but for a page dequeued at `max_depth` or
beyond, the whole link loop — edge recording included — is skipped. -/
theorem edge_per_same_host_link
    (a : Auditor) (src : String) (d : Nat) (s : CrawlState) (lnk : Link)
    (absu : String) (hn : normalize_url lnk.href src = .ok absu) :
    (host_of absu = a.host →
      ∀ s2, processLink a src d s lnk = .ok s2 →
        s2.edges = s.edges ++ [⟨src, absu, lnk.anchor, lnk.rel⟩]) ∧
    (host_of absu ≠ a.host → processLink a src d s lnk = .ok s) ∧
    (∀ (site : Site) (fuel : Nat) (u : String) (rest : List (String × Nat)),
      s.queue = (u, d) :: rest → a.max_depth ≤ d → s.pages.length < a.max_pages →
      crawlLoop a site (fuel + 1) s =
        crawlLoop a site fuel
          { s with queue := rest,
                   fetchLog := s.fetchLog ++ [(u, d)],
                   pages := dictInsert (pageKey (fetchModel site u).1)
                     (fetchModel site u).1 s.pages }) := by
  refine ⟨?_, ?_, ?_⟩
  · intro hhost s2 h
    simp only [processLink, hn] at h
    rw [if_neg (by simp [hhost])] at h
    repeat' split at h
    all_goals simp_all
    all_goals (subst h; rfl)
  · intro hhost
    simp only [processLink, hn]
    rw [if_pos hhost]
  · intro site fuel u rest hq hd hcap
    simp only [crawlLoop, hq, if_pos hcap]
    rw [if_neg (Nat.not_lt.mpr hd)]

/-- The state of a fresh crawl session before seeding. -/
def emptyCrawlState : CrawlState := ⟨[], [], [], [], []⟩

/-- The crawl state of the `depthSite` run at the moment `/a` (depth 1) is
at the head of the queue. -/
def atDepthState : CrawlState :=
  ⟨["https://s.com", "https://s.com/a"], [("https://s.com/a", 1)],
   [("https://s.com", okRec "https://s.com")],
   [⟨"https://s.com", "https://s.com/a", none, none⟩], [("https://s.com", 0)]⟩

/-- Witness for `edge_per_same_host_link`: a same-host `/cart` link (noise,
not enqueued) still appends its Edge, a foreign-host link leaves the state
unchanged, and the `/a` page at `max_depth` is stored without any link
processing. -/
theorem edge_per_same_host_link_witness :
    (⟨[], [], [], [⟨"https://s.com", "https://s.com/cart", none, none⟩], []⟩
        : CrawlState).edges =
      emptyCrawlState.edges ++ [⟨"https://s.com", "https://s.com/cart", none, none⟩] ∧
    processLink demoAuditor "https://s.com" 0 emptyCrawlState
      ⟨"https://other.com/x", none, none⟩ = .ok emptyCrawlState ∧
    crawlLoop depthAuditor depthSite 1 atDepthState =
      crawlLoop depthAuditor depthSite 0
        { atDepthState with
          queue := [],
          fetchLog := atDepthState.fetchLog ++ [("https://s.com/a", 1)],
          pages := dictInsert (pageKey (fetchModel depthSite "https://s.com/a").1)
            (fetchModel depthSite "https://s.com/a").1 atDepthState.pages } :=
  ⟨(edge_per_same_host_link demoAuditor "https://s.com" 0 emptyCrawlState
      ⟨"/cart", none, none⟩ "https://s.com/cart" (by decide)).1 (by decide) _ (by decide),
   (edge_per_same_host_link demoAuditor "https://s.com" 0 emptyCrawlState
      ⟨"https://other.com/x", none, none⟩ "https://other.com/x" (by decide)).2.1
      (by decide),
   (edge_per_same_host_link depthAuditor "https://s.com/a" 1 atDepthState
      ⟨"/b", none, none⟩ "https://s.com/b" (by decide)).2.2 depthSite 0
      "https://s.com/a" [] rfl (by decide) (by decide)⟩

/-! ### Frontier dedup (C3) -/

/-- Case analysis of one link-processing step: either the host differs (no
state change), or an Edge is appended, with the seen set and queue also
extended exactly when the dedupe key was unseen and the target not noise. -/
theorem processLink_cases (a : Auditor) (src : String) (d : Nat) (s : CrawlState)
    (l : Link) (s2 : CrawlState) (h : processLink a src d s l = .ok s2) :
    ∃ absu, normalize_url l.href src = .ok absu ∧
      (s2 = s ∨
        ∃ key, linkKey a absu = .ok key ∧
          (s2 = { s with edges := s.edges ++ [⟨src, absu, l.anchor, l.rel⟩] } ∨
           (key ∉ s.seen ∧
            s2 = { s with
                    seen := s.seen ++ [key],
                    queue := s.queue ++ [(absu, d + 1)],
                    edges := s.edges ++ [⟨src, absu, l.anchor, l.rel⟩] }))) := by
  simp only [processLink] at h
  split at h
  · exact absurd h (by simp)
  · rename_i absu hn
    refine ⟨absu, hn, ?_⟩
    split at h
    · left
      exact (Except.ok.inj h).symm
    · right
      split at h
      · exact absurd h (by simp)
      · rename_i key hk
        refine ⟨key, hk, ?_⟩
        split at h
        · exact absurd h (by simp)
        · rename_i enq henq
          split at h
          · right
            constructor
            · -- enq = true means the contains-check was false
              split at henq
              · simp at henq
                simp_all
              · rename_i hcont
                intro hmem
                exact hcont (by simpa using List.elem_iff.mpr hmem)
            · exact (Except.ok.inj h).symm
          · left
            exact (Except.ok.inj h).symm

end SeoAudit
namespace SeoAudit

/-- The dedupe key of a URL as an `Option` (`none` when `strip_params`
would raise). -/
def keyOf (a : Auditor) (u : String) : Option String := (linkKey a u).toOption

/-- Every URL ever fetched or currently enqueued has a computable dedupe
key that is already in the seen set (keys enter `seen` at enqueue time). -/
def KeysSeen (a : Auditor) (s : CrawlState) : Prop :=
  ∀ p ∈ s.fetchLog ++ s.queue, ∃ k, linkKey a p.1 = .ok k ∧ k ∈ s.seen

/-- The dedupe keys of the fetch log and the queue are pairwise distinct. -/
def KeysNodup (a : Auditor) (s : CrawlState) : Prop :=
  ((s.fetchLog ++ s.queue).map (fun p => keyOf a p.1)).Nodup

/-- One link-processing step preserves both key invariants: a newly
enqueued URL has a fresh key, which simultaneously enters `seen`. -/
theorem processLink_keys (a : Auditor) (src : String) (d : Nat) (s : CrawlState)
    (l : Link) (s2 : CrawlState) (h : processLink a src d s l = .ok s2)
    (hseen : KeysSeen a s) (hnd : KeysNodup a s) : KeysSeen a s2 ∧ KeysNodup a s2 := by
  obtain ⟨absu, hn, hc⟩ := processLink_cases a src d s l s2 h
  rcases hc with rfl | ⟨key, hk, hc⟩
  · exact ⟨hseen, hnd⟩
  rcases hc with rfl | ⟨hnotseen, rfl⟩
  · exact ⟨hseen, hnd⟩
  constructor
  · intro p hp
    simp only [KeysSeen] at hseen
    simp only [List.append_assoc, List.mem_append, List.mem_singleton] at hp
    rcases hp with hp | hp | rfl
    · obtain ⟨k, hk1, hk2⟩ := hseen p (by simp [hp])
      exact ⟨k, hk1, by simp [hk2]⟩
    · obtain ⟨k, hk1, hk2⟩ := hseen p (by simp [hp])
      exact ⟨k, hk1, by simp [hk2]⟩
    · exact ⟨key, hk, by simp⟩
  · simp only [KeysNodup] at hnd ⊢
    have hrw : ({ s with
        seen := s.seen ++ [key],
        queue := s.queue ++ [(absu, d + 1)],
        edges := s.edges ++ [⟨src, absu, l.anchor, l.rel⟩] } : CrawlState).fetchLog ++
          (s.queue ++ [(absu, d + 1)]) =
        (s.fetchLog ++ s.queue) ++ [(absu, d + 1)] := by
      simp
    rw [show ({ s with
        seen := s.seen ++ [key],
        queue := s.queue ++ [(absu, d + 1)],
        edges := s.edges ++ [⟨src, absu, l.anchor, l.rel⟩] } : CrawlState).fetchLog =
          s.fetchLog from rfl]
    rw [← List.append_assoc, List.map_append, List.nodup_append]
    refine ⟨hnd, by simp, ?_⟩
    intro x hx hx2
    simp only [List.map_singleton, List.mem_singleton] at hx2
    subst hx2
    obtain ⟨p, hp, hpk⟩ := List.mem_map.1 hx
    obtain ⟨k, hk1, hk2⟩ := hseen p hp
    have : keyOf a p.1 = some k := by simp only [keyOf, hk1]; rfl
    rw [this] at hpk
    have : keyOf a absu = some key := by simp only [keyOf, hk]; rfl
    rw [this] at hpk
    have hkk : k = key := by simpa using hpk
    subst hkk
    exact hnotseen hk2

end SeoAudit
namespace SeoAudit

/-- The link loop preserves the key invariants (also when it aborts). -/
theorem processLinks_keys (a : Auditor) (src : String) (d : Nat) :
    ∀ (ls : List Link) (s : CrawlState),
      KeysSeen a s → KeysNodup a s →
      KeysSeen a (processLinks a src d s ls).1 ∧
        KeysNodup a (processLinks a src d s ls).1 := by
  intro ls
  induction ls with
  | nil => intro s h1 h2; exact ⟨h1, h2⟩
  | cons l rest ih =>
    intro s h1 h2
    simp only [processLinks]
    cases hpl : processLink a src d s l with
    | ok s2 =>
      obtain ⟨h1a, h2a⟩ := processLink_keys a src d s l s2 hpl h1 h2
      exact ih s2 h1a h2a
    | error e => exact ⟨h1, h2⟩

/-- Moving the dequeued pair from the queue into the fetch log and storing a
page preserves both key invariants. -/
theorem step_keys (a : Auditor) (s : CrawlState) (u : String) (d : Nat)
    (rest : List (String × Nat)) (hq : s.queue = (u, d) :: rest)
    (pg : List (String × PageRecord))
    (hseen : KeysSeen a s) (hnd : KeysNodup a s) :
    KeysSeen a { s with queue := rest, fetchLog := s.fetchLog ++ [(u, d)], pages := pg } ∧
      KeysNodup a { s with queue := rest, fetchLog := s.fetchLog ++ [(u, d)], pages := pg } := by
  have hl : (s.fetchLog ++ [(u, d)]) ++ rest = s.fetchLog ++ s.queue := by
    rw [hq]
    simp
  constructor
  · intro p hp
    exact hseen p (by rw [← hl]; simpa using hp)
  · simp only [KeysNodup] at hnd ⊢
    simpa [hl] using hnd

/-- The crawl loop preserves the key invariants. -/
theorem crawlLoop_keys (a : Auditor) (site : Site) :
    ∀ (fuel : Nat) (s : CrawlState), KeysSeen a s → KeysNodup a s →
      KeysSeen a (crawlLoop a site fuel s).1 ∧
        KeysNodup a (crawlLoop a site fuel s).1 := by
  intro fuel
  induction fuel with
  | zero => intro s h1 h2; exact ⟨h1, h2⟩
  | succ n ih =>
    intro s h1 h2
    simp only [crawlLoop]
    split
    · exact ⟨h1, h2⟩
    · rename_i u d rest hq
      split
      · rename_i hcap
        obtain ⟨h1a, h2a⟩ := step_keys a s u d rest hq
          (dictInsert (pageKey (fetchModel site u).1) (fetchModel site u).1 s.pages) h1 h2
        split
        · split
          · rename_i s2 hpl
            apply ih
            all_goals
              have := processLinks_keys a (pageKey (fetchModel site u).1) d
                (fetchModel site u).2 _ h1a h2a
              rw [hpl] at this
            · exact this.1
            · exact this.2
          · rename_i s2 hpl
            have := processLinks_keys a (pageKey (fetchModel site u).1) d
              (fetchModel site u).2 _ h1a h2a
            rw [hpl] at this
            exact this
        · exact ih _ h1a h2a
      · exact ⟨h1, h2⟩

/-- The successfully seeded state satisfies the key invariants. -/
theorem initState_keys (a : Auditor) (s : CrawlState)
    (hs : initState a = (s, false)) : KeysSeen a s ∧ KeysNodup a s := by
  unfold initState at hs
  split at hs
  · rename_i k hk
    cases hs
    constructor
    · intro p hp
      simp at hp
      subst hp
      exact ⟨k, hk, by simp⟩
    · simp [KeysNodup]
  · cases hs

/-- Seeding never logs a fetch. -/
theorem initState_fetchLog (a : Auditor) (s : CrawlState) (b : Bool)
    (hs : initState a = (s, b)) : s.fetchLog = [] := by
  unfold initState at hs
  split at hs <;> (cases hs; rfl)

/-- **C3.**  During one crawl run `fetch_page` runs at most once per dedupe
key — the parameter-stripped normalized URL, or the full URL when
`include_params` is set: the keys of the fetch log are pairwise distinct.
Moreover every fetched URL's key is in the seen set, which it entered at
enqueue time, before the fetch. -/
theorem frontier_dedup (a : Auditor) (site : Site) (fuel : Nat) :
    ((Auditor.crawl a site fuel).1.fetchLog.map (fun p => keyOf a p.1)).Nodup ∧
    ∀ p ∈ (Auditor.crawl a site fuel).1.fetchLog,
      ∃ k, linkKey a p.1 = .ok k ∧ k ∈ (Auditor.crawl a site fuel).1.seen := by
  unfold Auditor.crawl
  split
  · rename_i s hs
    rw [initState_fetchLog a s true hs]
    exact ⟨by simp, by simp⟩
  · rename_i s hs
    obtain ⟨h1, h2⟩ := initState_keys a s hs
    have hloop := crawlLoop_keys a site fuel s h1 h2
    split
    · rename_i s2 hs2
      rw [hs2] at hloop
      refine ⟨?_, ?_⟩
      · have := hloop.2
        simp only [KeysNodup, List.map_append] at this
        exact this.of_append_left
      · intro p hp
        exact hloop.1 p (by simp [hp])
    · rename_i s2 hs2
      rw [hs2] at hloop
      refine ⟨?_, ?_⟩
      · have := hloop.2
        simp only [KeysNodup, List.map_append] at this
        exact this.of_append_left
      · intro p hp
        exact hloop.1 p (by simp [hp])

/-- Witness for `frontier_dedup` on the concrete demo crawl. -/
theorem frontier_dedup_witness :
    ((Auditor.crawl demoAuditor demoSite 10).1.fetchLog.map
        (fun p => keyOf demoAuditor p.1)).Nodup ∧
    ∃ k, linkKey demoAuditor "https://s.com/b" = .ok k ∧
      k ∈ (Auditor.crawl demoAuditor demoSite 10).1.seen :=
  ⟨(frontier_dedup demoAuditor demoSite 10).1,
   (frontier_dedup demoAuditor demoSite 10).2 ("https://s.com/b", 1) (by decide)⟩

/-! ### Breadth-first ordering (C5) -/

/-- The depth components of a `(url, depth)` list. -/
def depthsOf (l : List (String × Nat)) : List Nat := l.map (fun p => p.2)

/-- The depths along fetch log then queue are non-decreasing. -/
def DepthChain (s : CrawlState) : Prop :=
  List.Chain' (· ≤ ·) (depthsOf (s.fetchLog ++ s.queue))

/-- Invariant during link processing of a page dequeued at depth `d`:
the combined depths stay sorted, all queued depths are at most `d + 1`,
and the fetch log ends with the current page at depth `d`. -/
def ProcInv (d : Nat) (s : CrawlState) : Prop :=
  DepthChain s ∧ (∀ x ∈ s.queue, x.2 ≤ d + 1) ∧
    s.fetchLog.getLast?.map (fun p => p.2) = some d

/-- All queued depths are within one of the front depth (the frontier
spans at most two consecutive BFS levels). -/
def QueueBound (s : CrawlState) : Prop :=
  match s.queue with
  | [] => True
  | q :: _ => ∀ x ∈ s.queue, x.2 ≤ q.2 + 1

/-- Link processing preserves the depth invariant: children enter the back
of the queue at depth `d + 1`. -/
theorem processLink_depth (a : Auditor) (src : String) (d : Nat) (s : CrawlState)
    (l : Link) (s2 : CrawlState) (h : processLink a src d s l = .ok s2)
    (hp : ProcInv d s) : ProcInv d s2 := by
  obtain ⟨absu, hn, hc⟩ := processLink_cases a src d s l s2 h
  rcases hc with rfl | ⟨key, hk, hc⟩
  · exact hp
  rcases hc with rfl | ⟨hnotseen, rfl⟩
  · exact hp
  obtain ⟨hchain, hbound, hlast⟩ := hp
  refine ⟨?_, ?_, hlast⟩
  · simp only [DepthChain, depthsOf] at hchain ⊢
    show List.Chain' (· ≤ ·) ((s.fetchLog ++ (s.queue ++ [(absu, d + 1)])).map _)
    rw [← List.append_assoc, List.map_append]
    rw [List.chain'_append]
    refine ⟨hchain, by simp, ?_⟩
    intro x hx y hy
    simp only [List.map_cons, List.map_nil, List.head?_cons, Option.mem_def,
      Option.some.injEq] at hy
    subst hy
    rw [List.getLast?_map] at hx
    simp only [Option.mem_def, Option.map_eq_some'] at hx
    obtain ⟨p, hp1, rfl⟩ := hx
    rcases List.mem_append.1 (List.mem_of_mem_getLast? hp1) with hm | hm
    · -- p in fetchLog: if queue nonempty, getLast? of append is in queue; handle by cases
      cases hq : s.queue with
      | nil =>
        rw [hq] at hp1
        simp at hp1
        have h2 : s.fetchLog.getLast?.map (fun p => p.2) = some p.2 := by
          rw [hp1]
          rfl
        rw [hlast] at h2
        have := (Option.some.inj h2).symm
        omega
      | cons q qs =>
        rw [hq] at hp1
        rw [List.getLast?_append_of_ne_nil _ (by simp)] at hp1
        have := hbound p (by rw [hq]; exact List.mem_of_mem_getLast? hp1)
        omega
    · cases hq : s.queue with
      | nil =>
        rw [hq] at hm
        simp at hm
      | cons q qs =>
        rw [hq] at hp1
        rw [List.getLast?_append_of_ne_nil _ (by simp)] at hp1
        have := hbound p (by rw [hq]; exact List.mem_of_mem_getLast? hp1)
        omega
  · intro x hx
    rcases List.mem_append.1 hx with hm | hm
    · exact hbound x hm
    · simp only [List.mem_singleton] at hm
      subst hm
      simp


/-- The link loop preserves the depth invariant (also when it aborts). -/
theorem processLinks_depth (a : Auditor) (src : String) (d : Nat) :
    ∀ (ls : List Link) (s : CrawlState), ProcInv d s →
      ProcInv d (processLinks a src d s ls).1 := by
  intro ls
  induction ls with
  | nil => intro s h; exact h
  | cons l rest ih =>
    intro s h
    simp only [processLinks]
    cases hpl : processLink a src d s l with
    | ok s2 => exact ih s2 (processLink_depth a src d s l s2 hpl h)
    | error e => exact h

/-- Establishing the processing invariant right after a dequeue. -/
theorem step_depth (s : CrawlState) (u : String) (d : Nat)
    (rest : List (String × Nat)) (hq : s.queue = (u, d) :: rest)
    (pg : List (String × PageRecord))
    (hchain : DepthChain s) (hb : QueueBound s) :
    ProcInv d { s with queue := rest, fetchLog := s.fetchLog ++ [(u, d)], pages := pg } := by
  have hl : (s.fetchLog ++ [(u, d)]) ++ rest = s.fetchLog ++ s.queue := by
    rw [hq]; simp
  refine ⟨?_, ?_, ?_⟩
  · simp only [DepthChain, depthsOf] at hchain ⊢
    show List.Chain' (· ≤ ·) (((s.fetchLog ++ [(u, d)]) ++ rest).map _)
    rw [hl]
    exact hchain
  · intro x hx
    have := hb
    simp only [QueueBound, hq] at this
    exact this x (by simp [hq, hx])
  · simp [List.getLast?_concat]

/-- Recovering the loop invariant after link processing. -/
theorem procInv_to_queueBound (d : Nat) (s : CrawlState) (hp : ProcInv d s) :
    QueueBound s := by
  obtain ⟨hchain, hbound, hlast⟩ := hp
  simp only [QueueBound]
  cases hq : s.queue with
  | nil => trivial
  | cons q qs =>
    intro x hx
    have hx1 : x.2 ≤ d + 1 := hbound x (hq ▸ hx)
    have hdq : d ≤ q.2 := by
      simp only [DepthChain, depthsOf] at hchain
      rw [List.map_append, List.chain'_append] at hchain
      obtain ⟨-, -, hlink⟩ := hchain
      have := hlink d (by rw [List.getLast?_map, hlast]; rfl) q.2 (by rw [hq]; simp)
      exact this
    omega


/-- The crawl loop keeps the fetch-log/queue depths sorted. -/
theorem crawlLoop_depth (a : Auditor) (site : Site) :
    ∀ (fuel : Nat) (s : CrawlState), DepthChain s → QueueBound s →
      DepthChain (crawlLoop a site fuel s).1 := by
  intro fuel
  induction fuel with
  | zero => intro s h1 h2; exact h1
  | succ n ih =>
    intro s h1 h2
    simp only [crawlLoop]
    split
    · exact h1
    · rename_i u d rest hq
      split
      · rename_i hcap
        have hstep := step_depth s u d rest hq
          (dictInsert (pageKey (fetchModel site u).1) (fetchModel site u).1 s.pages) h1 h2
        split
        · split
          · rename_i s2 hpl
            have := processLinks_depth a (pageKey (fetchModel site u).1) d
              (fetchModel site u).2 _ hstep
            rw [hpl] at this
            exact ih s2 this.1 (procInv_to_queueBound d s2 this)
          · rename_i s2 hpl
            have := processLinks_depth a (pageKey (fetchModel site u).1) d
              (fetchModel site u).2 _ hstep
            rw [hpl] at this
            exact this.1
        · exact ih _ hstep.1 (procInv_to_queueBound d _ hstep)
      · exact h1

/-- The seeded state satisfies the depth invariants. -/
theorem initState_depth (a : Auditor) (s : CrawlState)
    (hs : initState a = (s, false)) : DepthChain s ∧ QueueBound s := by
  unfold initState at hs
  split at hs
  · cases hs
    constructor
    · simp [DepthChain, depthsOf]
    · intro x hx
      simp at hx
      simp [hx]
  · cases hs

/-- **C5.**  The queue is processed in strict FIFO order, giving true
breadth-first traversal: over any site and any bounds the fetch log's
depths are non-decreasing (a URL enqueued at depth `d + 1` is never fetched
before one already enqueued at depth `d`), and on the synthetic site where
A links to B and C and B links to D, the crawl from A fetches A, then B and
C in discovery order, then D. -/
theorem breadth_first_order :
    (∀ (a : Auditor) (site : Site) (fuel : Nat),
       List.Chain' (fun p q : String × Nat => p.2 ≤ q.2)
         (Auditor.crawl a site fuel).1.fetchLog) ∧
    (Auditor.crawl demoAuditor demoSite 10).1.fetchLog =
      [("https://s.com", 0), ("https://s.com/b", 1), ("https://s.com/c", 1),
       ("https://s.com/d", 2)] := by
  constructor
  · intro a site fuel
    unfold Auditor.crawl
    split
    · rename_i s hs
      rw [initState_fetchLog a s true hs]
      simp
    · rename_i s hs
      obtain ⟨h1, h2⟩ := initState_depth a s hs
      have hloop := crawlLoop_depth a site fuel s h1 h2
      have key : ∀ t : CrawlState, DepthChain t →
          List.Chain' (fun p q : String × Nat => p.2 ≤ q.2) t.fetchLog := by
        intro t ht
        simp only [DepthChain, depthsOf, List.map_append, List.chain'_append] at ht
        exact (List.chain'_map _).1 ht.1
      split
      · rename_i s2 hs2
        rw [hs2] at hloop
        exact key s2 hloop
      · rename_i s2 hs2
        rw [hs2] at hloop
        exact key s2 hloop
  · decide


/-! ### Totality of the URL normalizer on bracket-free input (C2) -/

/-- The character class on which the model's `urlsplit` validation is
exact and total: ASCII (so `_checknetloc` passes without consulting the
NFKC table) and not a square bracket (so neither bracket check fires). -/
def okChar (c : Char) : Prop := c.toNat ≤ 127 ∧ c ≠ '[' ∧ c ≠ ']'

instance (c : Char) : Decidable (okChar c) := by unfold okChar; infer_instance

/-- Every character of the string is ASCII and not a square bracket. -/
def CleanStr (s : List Char) : Prop := ∀ c ∈ s, okChar c

instance (s : List Char) : Decidable (CleanStr s) := by
  unfold CleanStr
  infer_instance

theorem clean_sub {s t : List Char} (h : ∀ c ∈ t, c ∈ s) (hs : CleanStr s) :
    CleanStr t := fun c hc => hs c (h c hc)

theorem clean_append {s t : List Char} (hs : CleanStr s) (ht : CleanStr t) :
    CleanStr (s ++ t) := by
  intro c hc
  rcases List.mem_append.1 hc with hc | hc
  · exact hs c hc
  · exact ht c hc

theorem clean_nil : CleanStr [] := fun c hc => absurd hc (List.not_mem_nil c)

theorem clean_cons {c : Char} {s : List Char} (hc : okChar c) (hs : CleanStr s) :
    CleanStr (c :: s) := by
  intro d hd
  rcases List.mem_cons.1 hd with rfl | hd
  · exact hc
  · exact hs d hd

theorem clean_not_mem_lb {s : List Char} (h : CleanStr s) : '[' ∉ s :=
  fun hm => (h _ hm).2.1 rfl

theorem clean_not_mem_rb {s : List Char} (h : CleanStr s) : ']' ∉ s :=
  fun hm => (h _ hm).2.2 rfl

theorem mem_cleanUrl {c : Char} {s : List Char} (h : c ∈ cleanUrl s) : c ∈ s := by
  simp only [cleanUrl] at h
  exact (List.dropWhile_sublist _).mem (List.mem_of_mem_filter h)

theorem mem_cleanScheme {c : Char} {s : List Char} (h : c ∈ cleanScheme s) : c ∈ s := by
  simp only [cleanScheme] at h
  have h1 := List.mem_of_mem_filter h
  rw [List.mem_reverse] at h1
  have h2 := (List.dropWhile_sublist _).mem h1
  rw [List.mem_reverse] at h2
  exact (List.dropWhile_sublist _).mem h2

theorem mem_splitOnFirst {sep c : Char} :
    ∀ {s : List Char}, (c ∈ (splitOnFirst sep s).1 → c ∈ s) ∧
      (c ∈ (splitOnFirst sep s).2 → c ∈ s)
  | [] => by simp [splitOnFirst]
  | x :: rest => by
    simp only [splitOnFirst]
    split
    · exact ⟨fun h => by simp at h, fun h => by simp [h]⟩
    · constructor
      · intro h
        rcases List.mem_cons.1 h with rfl | h
        · simp
        · exact List.mem_cons_of_mem _ ((@mem_splitOnFirst sep c rest).1 h)
      · intro h
        exact List.mem_cons_of_mem _ ((@mem_splitOnFirst sep c rest).2 h)

theorem mem_splitNetloc {c : Char} {s : List Char} :
    (c ∈ (splitNetloc s).1 → c ∈ s) ∧ (c ∈ (splitNetloc s).2 → c ∈ s) := by
  constructor
  · intro h
    exact (List.takeWhile_sublist _).mem h
  · intro h
    exact (List.drop_sublist _ _).mem h

theorem mem_splitFragQuery {c : Char} {s : List Char} :
    (c ∈ (splitFragQuery s).1 → c ∈ s) ∧ (c ∈ (splitFragQuery s).2.1 → c ∈ s) ∧
      (c ∈ (splitFragQuery s).2.2 → c ∈ s) := by
  simp only [splitFragQuery]
  split
  · split
    · exact ⟨fun h => mem_splitOnFirst.1 (mem_splitOnFirst.1 h),
        fun h => mem_splitOnFirst.1 (mem_splitOnFirst.2 h),
        fun h => mem_splitOnFirst.2 h⟩
    · exact ⟨fun h => mem_splitOnFirst.1 h, by simp, fun h => mem_splitOnFirst.2 h⟩
  · split
    · exact ⟨fun h => mem_splitOnFirst.1 h, fun h => mem_splitOnFirst.2 h, by simp⟩
    · exact ⟨fun h => h, by simp, by simp⟩

theorem schemeChars_lower_ok : ∀ c ∈ schemeChars, okChar c.toLower := by decide

theorem clean_lower_scheme {pre : List Char}
    (h : ∀ c ∈ pre, schemeChars.contains c) : CleanStr (lowerChars pre) := by
  intro c hc
  obtain ⟨d, hd1, hd2⟩ := List.mem_map.1 hc
  subst hd2
  exact schemeChars_lower_ok d (by simpa using h d hd1)

theorem contains_eq_false_of_not_mem {c : Char} {s : List Char} (h : c ∉ s) :
    s.contains c = false := by
  simpa using h

/-- An ASCII authority passes the `_checknetloc` validation. -/
theorem checknetloc_ok {netloc : List Char} (h : CleanStr netloc) :
    checknetloc netloc = .ok () := by
  unfold checknetloc
  rw [if_pos (Or.inr (List.all_eq_true.2 fun c hc => by
    simpa using (h c hc).1))]

/-- The netloc/fragment/query phase of `urlsplit` on ASCII bracket-free
input: neither bracket check nor the NFKC validation fires. -/
theorem urlsplit_tail {scheme rest : List Char} (hs : CleanStr scheme)
    (hr : CleanStr rest) :
    ∃ sp, (if rest.take 2 = ['/', '/'] then
        if ((splitNetloc (rest.drop 2)).1.contains '[' ∧
              ¬ (splitNetloc (rest.drop 2)).1.contains ']') ∨
           ((splitNetloc (rest.drop 2)).1.contains ']' ∧
              ¬ (splitNetloc (rest.drop 2)).1.contains '[') then
          (Except.error "Invalid IPv6 URL" : Except String SplitResult)
        else
          match checknetloc (splitNetloc (rest.drop 2)).1 with
          | .error e => .error e
          | .ok _ =>
            Except.ok ⟨scheme, (splitNetloc (rest.drop 2)).1,
              (splitFragQuery (splitNetloc (rest.drop 2)).2).1,
              (splitFragQuery (splitNetloc (rest.drop 2)).2).2.1,
              (splitFragQuery (splitNetloc (rest.drop 2)).2).2.2⟩
      else
        Except.ok ⟨scheme, [], (splitFragQuery rest).1, (splitFragQuery rest).2.1,
          (splitFragQuery rest).2.2⟩) = .ok sp ∧
      CleanStr sp.scheme ∧ CleanStr sp.netloc ∧ CleanStr sp.path ∧
      CleanStr sp.query ∧ CleanStr sp.fragment := by
  have hdrop : CleanStr (rest.drop 2) :=
    clean_sub (fun c hc => (List.drop_sublist _ _).mem hc) hr
  have hnet : CleanStr (splitNetloc (rest.drop 2)).1 :=
    clean_sub (fun c hc => mem_splitNetloc.1 hc) hdrop
  have hnet2 : CleanStr (splitNetloc (rest.drop 2)).2 :=
    clean_sub (fun c hc => mem_splitNetloc.2 hc) hdrop
  split
  · rw [if_neg (by
      rw [contains_eq_false_of_not_mem (clean_not_mem_lb hnet),
        contains_eq_false_of_not_mem (clean_not_mem_rb hnet)]
      simp), checknetloc_ok hnet]
    exact ⟨_, rfl, hs, hnet,
      clean_sub (fun c hc => mem_splitFragQuery.1 hc) hnet2,
      clean_sub (fun c hc => mem_splitFragQuery.2.1 hc) hnet2,
      clean_sub (fun c hc => mem_splitFragQuery.2.2 hc) hnet2⟩
  · exact ⟨_, rfl, hs, clean_nil,
      clean_sub (fun c hc => mem_splitFragQuery.1 hc) hr,
      clean_sub (fun c hc => mem_splitFragQuery.2.1 hc) hr,
      clean_sub (fun c hc => mem_splitFragQuery.2.2 hc) hr⟩

/-- On ASCII bracket-free input `urlsplit` always succeeds, with every
component ASCII and bracket-free. -/
theorem urlsplitE_ok (url ds : List Char) (hu : CleanStr url) (hd : CleanStr ds) :
    ∃ sp, urlsplitE url ds = .ok sp ∧ CleanStr sp.scheme ∧ CleanStr sp.netloc ∧
      CleanStr sp.path ∧ CleanStr sp.query ∧ CleanStr sp.fragment := by
  have hcu : CleanStr (cleanUrl url) := clean_sub (fun c hc => mem_cleanUrl hc) hu
  have hcd : CleanStr (cleanScheme ds) := clean_sub (fun c hc => mem_cleanScheme hc) hd
  simp only [urlsplitE]
  split
  · rename_i hcol
    split
    · rename_i hpre
      have hsch : CleanStr (lowerChars (splitOnFirst ':' (cleanUrl url)).1) :=
        clean_lower_scheme (fun c hc => by
          have h3 := List.all_eq_true.1 hpre.2.2 c hc
          simpa using h3)
      have hrest : CleanStr (splitOnFirst ':' (cleanUrl url)).2 :=
        clean_sub (fun c hc => mem_splitOnFirst.2 hc) hcu
      exact urlsplit_tail hsch hrest
    · exact urlsplit_tail hcd hcu
  · exact urlsplit_tail hcd hcu

theorem mem_splitparams {c : Char} {s : List Char} :
    (c ∈ (splitparams s).1 → c ∈ s) ∧ (c ∈ (splitparams s).2 → c ∈ s) := by
  simp only [splitparams]
  split
  · split
    · constructor
      · intro h
        rcases List.mem_append.1 h with h | h
        · exact (List.take_sublist _ _).mem h
        · have := mem_splitOnFirst.1 h
          rw [List.mem_reverse] at this
          have := mem_splitOnFirst.1 this
          rw [List.mem_reverse] at this
          exact this
      · intro h
        have := mem_splitOnFirst.2 h
        rw [List.mem_reverse] at this
        have := mem_splitOnFirst.1 this
        rw [List.mem_reverse] at this
        exact this
    · exact ⟨fun h => h, by simp⟩
  · split
    · exact ⟨fun h => mem_splitOnFirst.1 h, fun h => mem_splitOnFirst.2 h⟩
    · exact ⟨fun h => h, by simp⟩

/-- On ASCII bracket-free input `urlparse` always succeeds, with every
component ASCII and bracket-free. -/
theorem urlparseE_ok (url ds : List Char) (hu : CleanStr url) (hd : CleanStr ds) :
    ∃ p, urlparseE url ds = .ok p ∧ CleanStr p.scheme ∧ CleanStr p.netloc ∧
      CleanStr p.path ∧ CleanStr p.params ∧ CleanStr p.query ∧
      CleanStr p.fragment := by
  obtain ⟨sp, hsp, h1, h2, h3, h4, h5⟩ := urlsplitE_ok url ds hu hd
  simp only [urlparseE, hsp]
  split
  · exact ⟨_, rfl, h1, h2,
      clean_sub (fun c hc => mem_splitparams.1 hc) h3,
      clean_sub (fun c hc => mem_splitparams.2 hc) h3, h4, h5⟩
  · exact ⟨_, rfl, h1, h2, h3, clean_nil, h4, h5⟩

theorem clean_urlunsplit {u : SplitResult} (h1 : CleanStr u.scheme)
    (h2 : CleanStr u.netloc) (h3 : CleanStr u.path) (h4 : CleanStr u.query)
    (h5 : CleanStr u.fragment) : CleanStr (urlunsplit u) := by
  simp only [urlunsplit]
  have step1 : CleanStr (if u.netloc ≠ [] ∨ (u.path ≠ [] ∧ u.path.take 2 = ['/', '/']) then
      '/' :: '/' :: (u.netloc ++
        (if u.path ≠ [] ∧ u.path.take 1 ≠ ['/'] then '/' :: u.path else u.path))
    else u.path) := by
    split
    · refine clean_cons (by decide) (clean_cons (by decide) (clean_append h2 ?_))
      split
      · exact clean_cons (by decide) h3
      · exact h3
    · exact h3
  have step2 : CleanStr (if u.scheme ≠ [] then u.scheme ++ ':' ::
      (if u.netloc ≠ [] ∨ (u.path ≠ [] ∧ u.path.take 2 = ['/', '/']) then
        '/' :: '/' :: (u.netloc ++
          (if u.path ≠ [] ∧ u.path.take 1 ≠ ['/'] then '/' :: u.path else u.path))
      else u.path)
    else (if u.netloc ≠ [] ∨ (u.path ≠ [] ∧ u.path.take 2 = ['/', '/']) then
        '/' :: '/' :: (u.netloc ++
          (if u.path ≠ [] ∧ u.path.take 1 ≠ ['/'] then '/' :: u.path else u.path))
      else u.path)) := by
    split
    · exact clean_append h1 (clean_cons (by decide) step1)
    · exact step1
  split
  · refine clean_append ?_ (clean_cons (by decide) h5)
    split
    · exact clean_append step2 (clean_cons (by decide) h4)
    · exact step2
  · split
    · exact clean_append step2 (clean_cons (by decide) h4)
    · exact step2

theorem clean_urlunparse {p : ParseResult} (h1 : CleanStr p.scheme)
    (h2 : CleanStr p.netloc) (h3 : CleanStr p.path) (h3b : CleanStr p.params)
    (h4 : CleanStr p.query) (h5 : CleanStr p.fragment) :
    CleanStr (urlunparse p) := by
  simp only [urlunparse]
  apply clean_urlunsplit h1 h2 _ h4 h5
  show CleanStr (if p.params ≠ [] then p.path ++ ';' :: p.params else p.path)
  split
  · exact clean_append h3 (clean_cons (by decide) h3b)
  · exact h3

theorem mem_splitAll {sep c : Char} :
    ∀ {s : List Char} {part : List Char}, part ∈ splitAll sep s → c ∈ part → c ∈ s
  | [], part => by
    intro h hc
    simp [splitAll] at h
    subst h
    simp at hc
  | x :: rest, part => by
    intro h hc
    simp only [splitAll] at h
    split at h
    · rcases List.mem_cons.1 h with rfl | h
      · simp at hc
      · exact List.mem_cons_of_mem _ (mem_splitAll h hc)
    · rename_i hx
      rcases hr : splitAll sep rest with _ | ⟨hh, tt⟩
      · rw [hr] at h
        simp at h
        subst h
        simp at hc
        simp [hc]
      · rw [hr] at h
        rcases List.mem_cons.1 h with rfl | h
        · rcases List.mem_cons.1 hc with rfl | hc
          · simp
          · refine List.mem_cons_of_mem _
              (@mem_splitAll sep c rest _ ?_ hc)
            rw [hr]
            simp
        · exact List.mem_cons_of_mem _
            (@mem_splitAll sep c rest _ (by rw [hr]; simp [h]) hc)

theorem mem_middleFilter {part : List Char} {l : List (List Char)}
    (h : part ∈ middleFilter l) : part ∈ l := by
  match l with
  | [] => simp [middleFilter] at h
  | [a] => simp only [middleFilter] at h; exact h
  | a :: b :: rest =>
    simp only [middleFilter] at h
    rcases hr : (b :: rest).reverse with _ | ⟨last, midrev⟩
    · simp at hr
    · rw [hr] at h
      rcases List.mem_cons.1 h with rfl | h
      · simp
      · rcases List.mem_append.1 h with h | h
        · have hm : part ∈ midrev.reverse := List.mem_of_mem_filter h
          refine List.mem_cons_of_mem _ ?_
          have hmm : part ∈ (b :: rest).reverse := by
            rw [hr]
            simp only [List.mem_cons]
            right
            simpa using hm
          rw [List.mem_reverse] at hmm
          exact hmm
        · simp only [List.mem_singleton] at h
          subst h
          refine List.mem_cons_of_mem _ ?_
          have hmm : part ∈ (b :: rest).reverse := by rw [hr]; simp
          rw [List.mem_reverse] at hmm
          exact hmm

theorem mem_resolveSegments {part : List Char} {segs : List (List Char)}
    (h : part ∈ resolveSegments segs) : part ∈ segs := by
  suffices hgen : ∀ (segs : List (List Char)) (acc : List (List Char)),
      part ∈ segs.foldl (fun acc seg =>
        if seg = ['.', '.'] then acc.dropLast
        else if seg = ['.'] then acc
        else acc ++ [seg]) acc → part ∈ acc ∨ part ∈ segs by
    rcases hgen segs [] h with h | h
    · simp at h
    · exact h
  intro segs
  induction segs with
  | nil => intro acc h; exact Or.inl h
  | cons seg rest ih =>
    intro acc h
    simp only [List.foldl_cons] at h
    rcases ih _ h with h | h
    · split at h
      · exact Or.inl ((List.dropLast_sublist _).mem h)
      · split at h
        · exact Or.inl h
        · rcases List.mem_append.1 h with h | h
          · exact Or.inl h
          · simp only [List.mem_singleton] at h
            subst h
            exact Or.inr (by simp)
    · exact Or.inr (List.mem_cons_of_mem _ h)

theorem mem_joinWith {c : Char} :
    ∀ {parts : List (List Char)}, c ∈ joinWith '/' parts →
      c = '/' ∨ ∃ part ∈ parts, c ∈ part
  | [] => by simp [joinWith]
  | [x] => by
    intro h
    simp only [joinWith] at h
    exact Or.inr ⟨x, by simp, h⟩
  | x :: y :: rest => by
    intro h
    simp only [joinWith] at h
    rcases List.mem_append.1 h with h | h
    · exact Or.inr ⟨x, by simp, h⟩
    · rcases List.mem_cons.1 h with rfl | h
      · exact Or.inl rfl
      · rcases @mem_joinWith c (y :: rest) h with h | ⟨part, hp, hc⟩
        · exact Or.inl h
        · exact Or.inr ⟨part, List.mem_cons_of_mem _ hp, hc⟩

theorem clean_joinWith {parts : List (List Char)}
    (h : ∀ part ∈ parts, CleanStr part) : CleanStr (joinWith '/' parts) := by
  intro c hc
  rcases mem_joinWith hc with h1 | ⟨part, hp, hcp⟩
  · subst h1
    decide
  · exact h part hp c hcp

/-- The final path assembly of `urljoin` keeps the character class. -/
theorem clean_joinTail (segs : List (List Char))
    (hseg : ∀ part ∈ segs, CleanStr part) :
    CleanStr (if joinWith '/'
        (if segs.getLast? = some ['.'] ∨ segs.getLast? = some ['.', '.'] then
          resolveSegments segs ++ [[]]
        else resolveSegments segs) = [] then ['/']
      else joinWith '/'
        (if segs.getLast? = some ['.'] ∨ segs.getLast? = some ['.', '.'] then
          resolveSegments segs ++ [[]]
        else resolveSegments segs)) := by
  have hres0 : ∀ part ∈ resolveSegments segs, CleanStr part :=
    fun part hp => hseg _ (mem_resolveSegments hp)
  have hres : ∀ part ∈ resolveSegments segs ++ [[]], CleanStr part := by
    intro part hp
    rcases List.mem_append.1 hp with hp | hp
    · exact hres0 _ hp
    · simp only [List.mem_singleton] at hp
      subst hp
      exact clean_nil
  by_cases hc : segs.getLast? = some ['.'] ∨ segs.getLast? = some ['.', '.']
  · simp only [if_pos hc]
    split
    · exact by decide
    · exact clean_joinWith hres
  · simp only [if_neg hc]
    split
    · exact by decide
    · exact clean_joinWith hres0

theorem clean_joinPath {bpath rpath : List Char} (hb : CleanStr bpath)
    (hr : CleanStr rpath) : CleanStr (joinPath bpath rpath) := by
  simp only [joinPath]
  split
  · exact clean_joinTail _ (fun part hp =>
      clean_sub (fun c hc => mem_splitAll hp hc) hr)
  · refine clean_joinTail _ (fun part hp => ?_)
    rcases List.mem_append.1 (mem_middleFilter hp) with hp2 | hp2
    · have hpb : part ∈ splitAll '/' bpath := by
        split at hp2
        · exact (List.dropLast_sublist _).mem hp2
        · exact hp2
      exact clean_sub (fun c hc => mem_splitAll hpb hc) hb
    · exact clean_sub (fun c hc => mem_splitAll hp2 hc) hr

/-- On ASCII bracket-free input `urljoin` always succeeds, with an ASCII
bracket-free result. -/
theorem urljoinE_ok (base url : List Char) (hb : CleanStr base) (hu : CleanStr url) :
    ∃ out, urljoinE base url = .ok out ∧ CleanStr out := by
  simp only [urljoinE]
  split
  · exact ⟨url, rfl, hu⟩
  split
  · exact ⟨base, rfl, hb⟩
  obtain ⟨b, hbp, hb1, hb2, hb3, hb4, hb5, hb6⟩ := urlparseE_ok base [] hb clean_nil
  simp only [hbp]
  obtain ⟨r, hrp, hr1, hr2, hr3, hr4, hr5, hr6⟩ := urlparseE_ok url b.scheme hu hb1
  simp only [hrp]
  split
  · exact ⟨url, rfl, hu⟩
  split
  · exact ⟨_, rfl, clean_urlunparse hr1 hr2 hr3 hr4 hr5 hr6⟩
  have hnet : CleanStr (if usesNetloc.contains r.scheme then b.netloc else r.netloc) := by
    split
    · exact hb2
    · exact hr2
  split
  · have hq : CleanStr (if r.query = [] then b.query else r.query) := by
      split
      · exact hb5
      · exact hr5
    exact ⟨_, rfl, clean_urlunparse hr1 hnet hb3 hb4 hq hr6⟩
  · exact ⟨_, rfl, clean_urlunparse hr1 hnet (clean_joinPath hb3 hr3) hr4 hr5 hr6⟩

/-- **C2, amended.**  `normalize_url` never raises on ASCII inputs free of
square brackets: an empty href returns the base URL itself (not an empty
result), and for every href and base whose characters are all ASCII with
neither `[` nor `]` occurring, the function returns a normalized URL.  It
is not total: an unbalanced square bracket in the authority raises
`ValueError("Invalid IPv6 URL")` (the counterexample), and a non-ASCII
authority can raise `ValueError` through `urlsplit`'s NFKC validation
(e.g. the bracket-free href `http://℀`, whose authority normalizes to
`a/c`). -/
theorem normalize_url_total_ascii :
    (∀ base : String, normalize_url "" base = .ok base) ∧
    (∀ href base : String, CleanStr href.data → CleanStr base.data →
      ∃ out, normalize_url href base = .ok out) := by
  constructor
  · intro base
    rfl
  · intro href base h1 h2
    simp only [normalize_url]
    split
    · exact ⟨base, rfl⟩
    obtain ⟨absu, hj, habs⟩ := urljoinE_ok base.data href.data h2 h1
    simp only [hj]
    obtain ⟨p, hp, -⟩ := urlparseE_ok absu [] habs clean_nil
    simp only [hp]
    exact ⟨_, rfl⟩

/-- Witness for `normalize_url_total_ascii` at concrete inputs. -/
theorem normalize_url_total_ascii_witness :
    normalize_url "" "https://s.com" = .ok "https://s.com" ∧
    ∃ out, normalize_url "/b?x=1#frag" "https://s.com/a" = .ok out :=
  ⟨normalize_url_total_ascii.1 "https://s.com",
   normalize_url_total_ascii.2 "/b?x=1#frag" "https://s.com/a"
     (by decide) (by decide)⟩

end SeoAudit
